import Mathlib

/- A shallow embedding of src/libogit.py: the object envelope codec, the
tree-entry codec, the KVLM codec, the object store, the tree materializer
and the ancestry walker, together with proofs of the specification's
claims about them.  Byte strings (and text strings, which in this program
carry only ASCII identifiers and tags) are modelled as lists of natural
numbers; recursion that Python bounds only by the call stack is modelled
with an explicit fuel argument whose exhaustion is a distinguished
outcome, provably unreachable on the inputs the claims quantify over. -/

namespace Ogit

/-- Python exception outcomes relevant to libogit, plus a marker for fuel
exhaustion of the explicit-fuel loops used to model unbounded recursion.
The two read_object raises (bad type tag, bad declared length) get their
own constructors badType and badLength. -/
inductive PyErr where
  | nonTermination
  | notFound
  | badType
  | badLength
  | valueError
  | assertionError
  | nameError
  | keyError
  | typeError
  | indexError
  | overflowError
  deriving DecidableEq

/-- Result of running a piece of Python code: a value or a raised exception. -/
inductive PRes (α : Type) where
  | ok (a : α)
  | error (e : PyErr)
  deriving DecidableEq

/-- Map over the value of a successful result. -/
def presMap {α β : Type} (f : α → β) : PRes α → PRes β
  | .ok a => .ok (f a)
  | .error e => .error e

/-- Sequence two fallible computations, propagating a raised exception. -/
def presBind {α β : Type} : PRes α → (α → PRes β) → PRes β
  | .ok a, f => f a
  | .error e, _ => .error e

/-- Value of a big-endian digit list in base b (most significant digit first). -/
def valueBE (b : Nat) (l : List Nat) : Nat :=
  l.foldl (fun a d => b * a + d) 0

/-- Fixed-width big-endian base-b digits of n (most significant first). -/
def digitsBEPad (b w n : Nat) : List Nat :=
  (List.range w).map (fun i => n / b ^ (w - 1 - i) % b)

/-- Little-endian decimal digits of n, with fuel bounding the loop; fuel
of at least n always suffices. -/
def natDigitsRev : Nat → Nat → List Nat
  | 0, _ => []
  | fuel + 1, n => if n = 0 then [] else n % 10 :: natDigitsRev fuel (n / 10)

/-- Decimal ASCII rendering of a natural number, modelling Python str(n)
for nonnegative n. -/
def strNat (n : Nat) : List Nat :=
  if n = 0 then [48] else (natDigitsRev n n).reverse.map (fun d => d + 48)

/-- Index of the first occurrence of byte t in l, if any. -/
def findFromIdx (l : List Nat) (t : Nat) : Option Nat :=
  match l with
  | [] => none
  | b :: bs => if b = t then some 0 else (findFromIdx bs t).map (· + 1)

/-- Python bytes.find for a single byte: returns the index of the first
occurrence at or after start, or -1; a negative start counts from the end,
clamped at 0. -/
def pyFind (raw : List Nat) (t : Nat) (start : Int) : Int :=
  let s : Nat := if start < 0 then (start + raw.length).toNat else start.toNat
  match findFromIdx (raw.drop s) t with
  | none => -1
  | some i => (s : Int) + i

/-- Clamp a Python slice bound to the interval [0, n], counting negative
indices from the end. -/
def clampIdx (i : Int) (n : Nat) : Nat :=
  if i < 0 then (i + n).toNat else min i.toNat n

/-- Python slice raw[i:j] with full negative-index and clamping semantics. -/
def pySlice (raw : List Nat) (i j : Int) : List Nat :=
  (raw.take (clampIdx j raw.length)).drop (clampIdx i raw.length)

/-- Python subscript raw[i]: negative indices count from the end, and an
out-of-range index raises IndexError. -/
def pyIndex (raw : List Nat) (i : Int) : PRes Nat :=
  let j := if i < 0 then i + raw.length else i
  if 0 ≤ j ∧ j < (raw.length : Int) then .ok (raw.getD j.toNat 0) else .error .indexError

/-- ASCII whitespace bytes stripped by Python int() around a numeral. -/
def isWsByte (b : Nat) : Bool :=
  decide (b = 32 ∨ b = 9 ∨ b = 10 ∨ b = 11 ∨ b = 12 ∨ b = 13)

/-- ASCII decimal digit test. -/
def isDigitByte (b : Nat) : Bool :=
  decide (48 ≤ b ∧ b ≤ 57)

/-- Strip ASCII whitespace from both ends of a byte string. -/
def stripWs (l : List Nat) : List Nat :=
  ((l.dropWhile isWsByte).reverse.dropWhile isWsByte).reverse

/-- Parse a nonempty all-digit byte string to its decimal value. -/
def allDigitsVal (l : List Nat) : Option Nat :=
  if l.isEmpty then none
  else if l.all isDigitByte then some (valueBE 10 (l.map (fun c => c - 48)))
  else none

/-- Model of Python int(s.decode()) on a byte string: UTF-8 decode then
integer parse with surrounding-whitespace stripping and an optional sign.
Non-ASCII input and digit-grouping underscores are treated as parse
failures; neither occurs in the byte strings this program produces, and
on the inputs the claims quantify over this agrees with Python exactly. -/
def pyIntBytes (l : List Nat) : Option Int :=
  if l.any (fun b => decide (128 ≤ b)) then none
  else if (stripWs l).isEmpty then none
  else if (stripWs l).headD 0 = 43 then
    (allDigitsVal (stripWs l).tail).map (fun n => (n : Int))
  else if (stripWs l).headD 0 = 45 then
    (allDigitsVal (stripWs l).tail).map (fun n => -(n : Int))
  else (allDigitsVal (stripWs l)).map (fun n => (n : Int))

/-- Lowercase-or-uppercase hexadecimal digit test. -/
def isHexByte (c : Nat) : Bool :=
  decide ((48 ≤ c ∧ c ≤ 57) ∨ (97 ≤ c ∧ c ≤ 102) ∨ (65 ≤ c ∧ c ≤ 70))

/-- Value of a hexadecimal digit byte. -/
def hexDigitVal (c : Nat) : Nat :=
  if 97 ≤ c then c - 87 else if 65 ≤ c then c - 55 else c - 48

/-- Lowercase hexadecimal digit byte for a value below 16, as produced by
Python format(n, 'x'). -/
def hexChar (d : Nat) : Nat :=
  if d < 10 then d + 48 else d + 87

/-- Model of Python int(s, 16) on a nonempty plain hex-digit string; the
whitespace, sign, 0x-prefix and underscore forms that int also accepts do
not occur in this program's identifier strings and are treated as parse
failures. -/
def hexParse (l : List Nat) : Option Nat :=
  if l.isEmpty then none
  else if l.all isHexByte then some (valueBE 16 (l.map hexDigitVal))
  else none

/-- Model of Python format(n, '040x'): 40 lowercase hex digits, zero padded. -/
def natToHex40 (n : Nat) : List Nat :=
  (digitsBEPad 16 40 n).map hexChar

/-- Type tag of blob objects, the bytes of b'blob'. -/
def blobTag : List Nat := [98, 108, 111, 98]

/-- Type tag of tree objects, the bytes of b'tree'. -/
def treeTag : List Nat := [116, 114, 101, 101]

/-- Type tag of commit objects, the bytes of b'commit'. -/
def commitTag : List Nat := [99, 111, 109, 109, 105, 116]

/-- One tree entry as produced by parse_tree_leaf: mode and path are byte
strings, sha is the 40-character hex identifier string (modelled, like all
ASCII strings here, as its byte list). -/
structure TreeLeaf where
  mode : List Nat
  path : List Nat
  sha : List Nat
  deriving DecidableEq

/-- Model of parse_tree_leaf: find the space, assert the mode width is 5
or 6, find the NUL ending the path, read the next 20 bytes as a big-endian
number and render it as a 40-digit lowercase hex identifier; returns the
position just past the entry together with the leaf. -/
def parse_tree_leaf (raw : List Nat) (start : Int) : PRes (Int × TreeLeaf) :=
  let space := pyFind raw 32 start
  if space - start = 5 ∨ space - start = 6 then
    let mode := pySlice raw start space
    let null := pyFind raw 0 space
    let path := pySlice raw (space + 1) null
    let sha := natToHex40 (valueBE 256 (pySlice raw (null + 1) (null + 21)))
    .ok (null + 21, ⟨mode, path, sha⟩)
  else .error .assertionError

/-- Loop body of parse_tree: consume leaves while the cursor is below the
payload length.  Fuel models the unbounded while loop; parse_tree passes
length + 1 fuel, which suffices whenever the cursor advances. -/
def parse_tree_go (raw : List Nat) : Nat → Int → List TreeLeaf → PRes (List TreeLeaf)
  | 0, _, _ => .error .nonTermination
  | fuel + 1, pos, acc =>
    if pos < (raw.length : Int) then
      match parse_tree_leaf raw pos with
      | .error e => .error e
      | .ok (pos', leaf) => parse_tree_go raw fuel pos' (acc ++ [leaf])
    else .ok acc

/-- Model of parse_tree: parse leaves from position 0 until the payload is
exhausted. -/
def parse_tree (raw : List Nat) : PRes (List TreeLeaf) :=
  parse_tree_go raw (raw.length + 1) 0 []

/-- Model of serialize_tree: emit mode, space, path, NUL and the entry's
identifier parsed as a hex number and rendered as 20 big-endian bytes.
int(sha, 16) failing to parse raises ValueError and a value not fitting
20 bytes makes to_bytes raise OverflowError. -/
def serialize_tree : List TreeLeaf → PRes (List Nat)
  | [] => .ok []
  | e :: rest =>
    match hexParse e.sha with
    | none => .error .valueError
    | some v =>
      if v < 256 ^ 20 then
        match serialize_tree rest with
        | .ok bs => .ok (e.mode ++ 32 :: e.path ++ 0 :: (digitsBEPad 256 20 v ++ bs))
        | .error er => .error er
      else .error .overflowError

/-- Byte image of a single tree entry as serialize_tree emits it: mode,
space, path, NUL, and the 20 big-endian bytes of the identifier's value. -/
def entryBytes (e : TreeLeaf) : List Nat :=
  e.mode ++ 32 :: e.path ++ 0 :: digitsBEPad 256 20 (valueBE 16 (e.sha.map hexDigitVal))

/-- Concatenated byte image of a list of tree entries, the successful
output of serialize_tree. -/
def serEntries : List TreeLeaf → List Nat
  | [] => []
  | e :: rest => entryBytes e ++ serEntries rest

/-- Value stored under a KVLM key: a single byte string, or a list of byte
strings once the key has repeated. -/
inductive KvlmVal where
  | scalar (v : List Nat)
  | list (vs : List (List Nat))
  deriving DecidableEq

/-- A KVLM mapping: an insertion-ordered dictionary from byte-string keys
to scalar-or-list values, with the message under the empty key. -/
abbrev Kvlm : Type := List (List Nat × KvlmVal)

/-- Dictionary lookup on a KVLM mapping. -/
def kvlmLookup : Kvlm → List Nat → Option KvlmVal
  | [], _ => none
  | (k', v') :: rest, k => if k' = k then some v' else kvlmLookup rest k

/-- Dictionary assignment d[k] = v: replace the value in place if the key
is present, else append the new key at the end (insertion order). -/
def kvlmSet : Kvlm → List Nat → KvlmVal → Kvlm
  | [], k, v => [(k, v)]
  | (k', v') :: rest, k, v =>
    if k' = k then (k', v) :: rest else (k', v') :: kvlmSet rest k v

/-- The don't-overwrite insertion used by parse_lvlm: a repeated key turns
its scalar into a two-element list or appends to an existing list. -/
def kvlmAdd : Kvlm → List Nat → List Nat → Kvlm
  | [], k, v => [(k, .scalar v)]
  | (k', v') :: rest, k, v =>
    if k' = k then
      (k', match v' with
           | .scalar s => KvlmVal.list [s, v]
           | .list l => KvlmVal.list (l ++ [v])) :: rest
    else (k', v') :: kvlmAdd rest k v

/-- The value list a Python caller iterates for a KVLM value: a scalar is
wrapped in a singleton. -/
def kvlmVals : KvlmVal → List (List Nat)
  | .scalar v => [v]
  | .list vs => vs

/-- Model of bytes.replace(b'\x0a\x20', b'\x0a'): left-to-right
non-overlapping replacement dropping the space of each continuation. -/
def replaceNlSp : List Nat → List Nat
  | 10 :: 32 :: rest => 10 :: replaceNlSp rest
  | b :: rest => b :: replaceNlSp rest
  | [] => []

/-- The while-True loop of parse_lvlm that finds the end of a value: keep
taking the next newline while the byte after it is a space.  Subscripting
one past the last byte raises IndexError; the fuel marks the runs on which
the Python loop never exits. -/
def findValueEnd (raw : List Nat) : Nat → Int → PRes Int
  | 0, _ => .error .nonTermination
  | fuel + 1, e =>
    let e' := pyFind raw 10 (e + 1)
    match pyIndex raw (e' + 1) with
    | .error err => .error err
    | .ok b => if b = 32 then findValueEnd raw fuel e' else .ok e'

/-- Recursive body of parse_lvlm.  The base case fires when the newline at
the cursor precedes any space (a blank line, asserted to start exactly at
the cursor) and takes the remainder as the message; otherwise one header
line (with folded continuations) is consumed and the recursion continues
past it.  Fuel models Python's recursion depth. -/
def parse_lvlm_go (raw : List Nat) : Nat → Int → Kvlm → PRes Kvlm
  | 0, _, _ => .error .nonTermination
  | fuel + 1, start, dict =>
    let space := pyFind raw 32 start
    let newline := pyFind raw 10 start
    if space < 0 ∨ newline < space then
      if newline = start then
        .ok (kvlmSet dict [] (.scalar (pySlice raw (start + 1) raw.length)))
      else .error .assertionError
    else
      let key := pySlice raw start space
      match findValueEnd raw (raw.length + 2) start with
      | .error e => .error e
      | .ok e =>
        let value := replaceNlSp (pySlice raw (space + 1) e)
        parse_lvlm_go raw fuel (e + 1) (kvlmAdd dict key value)

/-- Model of parse_lvlm from the start of a payload with a fresh dict. -/
def parse_lvlm (raw : List Nat) : PRes Kvlm :=
  parse_lvlm_go raw (raw.length + 2) 0 []

/-- Whether a KVLM entry makes serialize_kvlm execute its value loop body
at least once: a non-message key whose value list is nonempty. -/
def kvlmEmitsLine (e : List Nat × KvlmVal) : Bool :=
  decide (e.1 ≠ []) && !(kvlmVals e.2).isEmpty

/-- Model of serialize_kvlm.  The source's header-emitting line reads the
name k, which is bound nowhere in the module (a slip for key), so the
first header line ever emitted raises NameError; a mapping whose headers
are all absent or empty-listed instead reaches the message concatenation,
which raises KeyError when the empty key is missing and TypeError when
its value is a list rather than bytes. -/
def serialize_kvlm (kvlm : Kvlm) : PRes (List Nat) :=
  if kvlm.any kvlmEmitsLine then .error .nameError
  else
    match kvlmLookup kvlm [] with
    | some (.scalar m) => .ok (10 :: m)
    | some (.list _) => .error .typeError
    | none => .error .keyError

/-- A decoded object as held by the typed object model: Blob carries raw
bytes, Tree its parsed entries, Commit its parsed KVLM mapping. -/
inductive ObjVal where
  | blob (data : List Nat)
  | tree (items : List TreeLeaf)
  | commit (kvlm : Kvlm)
  deriving DecidableEq

/-- Type tag (the class attribute fmt) of a decoded object. -/
def fmtOf : ObjVal → List Nat
  | .blob _ => blobTag
  | .tree _ => treeTag
  | .commit _ => commitTag

/-- Model of obj.serialize(): identity for blobs, the tree-entry codec for
trees, the KVLM codec for commits. -/
def serializeObj : ObjVal → PRes (List Nat)
  | .blob d => .ok d
  | .tree items => serialize_tree items
  | .commit kvlm => serialize_kvlm kvlm

/-- Model of OBJECT_FORMAT_TO_CLASS dispatch followed by deserialize on
the payload (the constructor runs deserialize when data is given). -/
def deserializeObj (fmt payload : List Nat) : PRes ObjVal :=
  if fmt = commitTag then presMap ObjVal.commit (parse_lvlm payload)
  else if fmt = treeTag then presMap ObjVal.tree (parse_tree payload)
  else if fmt = blobTag then .ok (ObjVal.blob payload)
  else .error .badType

/-- The envelope write_object builds: type tag, space, decimal ASCII
length of the payload, NUL, payload. -/
def encodeEnvelope (t payload : List Nat) : List Nat :=
  t ++ 32 :: (strNat payload.length ++ 0 :: payload)

/-- The envelope-parsing portion of read_object (its lines between the
decompression and the typed dispatch): find the first space, take the
prefix as the type tag and check it against the known tags, find the
first NUL from the space, parse the bytes between space and NUL (space
included, which int() strips) as the declared decimal length, and check
it against the number of bytes after the NUL. -/
def decodeEnvelope (raw : List Nat) : PRes (List Nat × List Nat) :=
  let first_space := pyFind raw 32 0
  let fmt := pySlice raw 0 first_space
  if fmt = commitTag ∨ fmt = treeTag ∨ fmt = blobTag then
    let first_null := pyFind raw 0 first_space
    match pyIntBytes (pySlice raw first_space first_null) with
    | none => .error .valueError
    | some size =>
      if size = (raw.length : Int) - first_null - 1 then
        .ok (fmt, pySlice raw (first_null + 1) raw.length)
      else .error .badLength
  else .error .badType

/-- The object store's on-disk state: a map from sharded paths (first two
identifier characters as the directory under objects, the rest as the
file name) to the stored compressed bytes. -/
abbrev Fs : Type := List ((List Nat × List Nat) × List Nat)

/-- Path lookup in the store. -/
def fsLookup : Fs → List Nat × List Nat → Option (List Nat)
  | [], _ => none
  | (k, b) :: rest, key => if k = key then some b else fsLookup rest key

/-- Writing a file: the new binding shadows any earlier one at that path. -/
def fsInsert (fs : Fs) (key : List Nat × List Nat) (b : List Nat) : Fs :=
  (key, b) :: fs

/-- The sharded path of an identifier: first two characters, remaining
characters. -/
def shaPath (sha : List Nat) : List Nat × List Nat :=
  (sha.take 2, sha.drop 2)

/-- Model of read_object over the store state: locate the sharded path (a
missing file raises, modelled as notFound), decompress with decomp (the
model of zlib.decompress, an external lossless codec taken as a
parameter), parse the envelope, and dispatch to the typed deserializer. -/
def read_object (decomp : List Nat → List Nat) (fs : Fs) (sha : List Nat) : PRes ObjVal :=
  match fsLookup fs (shaPath sha) with
  | none => .error .notFound
  | some stored =>
    match decodeEnvelope (decomp stored) with
    | .error e => .error e
    | .ok (fmt, payload) => deserializeObj fmt payload

/-- Model of write_object: serialize, build the envelope, hash it with
hashHex (the model of hashlib.sha1(...).hexdigest(), an external digest
taken as a parameter), and if actually_write is set persist the
comp-compressed envelope (comp models zlib.compress) under the sharded
path; returns the identifier with the possibly unchanged store state. -/
def write_object (comp hashHex : List Nat → List Nat) (fs : Fs) (v : ObjVal)
    (actually_write : Bool) : PRes (List Nat × Fs) :=
  match serializeObj v with
  | .error e => .error e
  | .ok data =>
    let result := encodeEnvelope (fmtOf v) data
    let sha := hashHex result
    if actually_write then .ok (sha, fsInsert fs (shaPath sha) (comp result))
    else .ok (sha, fs)

/-- Model of hash_object: construct the typed object from the read bytes
via the format dispatch (running deserialize), then write_object with
actually_write set exactly when a repository was supplied. -/
def hash_object (comp hashHex : List Nat → List Nat) (fs : Fs) (data fmt : List Nat)
    (repoPresent : Bool) : PRes (List Nat × Fs) :=
  match deserializeObj fmt data with
  | .error e => .error e
  | .ok v => write_object comp hashHex fs v repoPresent

/-- A store of already-decoded objects keyed by identifier, abstracting
the read_object pipeline (whose byte-level fidelity is established
separately) for the traversal algorithms that only consume its results. -/
abbrev ObjStore : Type := List (List Nat × ObjVal)

/-- Lookup of a decoded object by identifier; none models the exception
read_object raises for a missing object. -/
def storeLookup : ObjStore → List Nat → Option ObjVal
  | [], _ => none
  | (k, v) :: rest, key => if k = key then some v else storeLookup rest key

/-- A filesystem effect of checkout_tree: creating a directory or writing
a file, at a path given as the list of components joined onto the
destination. -/
inductive FsEvent where
  | mkdir (p : List (List Nat))
  | write (p : List (List Nat)) (data : List Nat)
  deriving DecidableEq

/-- Model of the destination computation dest = path / item.path: the
left operand is a pathlib Path and the entry path is a byte string (every
entry path is sliced out of the raw payload by parse_tree_leaf), and
pathlib joins only str or str-valued os.PathLike segments, so the join
raises TypeError unconditionally. -/
def pathJoinBytes (_path : List (List Nat)) (_component : List Nat) :
    PRes (List (List Nat)) :=
  .error .typeError

/-- Model of checkout_tree: walk the entries in order, resolving each
identifier through the store, then computing the destination by joining
the Path with the entry's byte-string path — which raises TypeError, so
on any nonempty tree the function raises at its first entry (after the
read, before any filesystem effect).  The remainder mirrors the source's
dead code: a tree entry would create the subdirectory named by its path
but recurse with the parent destination path (the source passes path,
not dest, to the recursive call), a blob entry would write its bytes at
the destination, and a commit object matches neither isinstance branch;
none of it is reachable past the failing join.  The result is the
exception raised, if any, with the ordered filesystem effects performed
before it. -/
def checkout_go (store : ObjStore) : Nat → List TreeLeaf → List (List Nat) →
    Option PyErr × List FsEvent
  | 0, _, _ => (some .nonTermination, [])
  | _ + 1, [], _ => (none, [])
  | fuel + 1, it :: rest, path =>
    match storeLookup store it.sha with
    | none => (some .notFound, [])
    | some obj =>
      match pathJoinBytes path it.path with
      | .error e => (some e, [])
      | .ok dest =>
        match obj with
        | .blob d =>
          let r := checkout_go store fuel rest path
          (r.1, FsEvent.write dest d :: r.2)
        | .tree sub =>
          let rsub := checkout_go store fuel sub path
          match rsub.1 with
          | some err => (some err, FsEvent.mkdir dest :: rsub.2)
          | none =>
            let rrest := checkout_go store fuel rest path
            (rrest.1, FsEvent.mkdir dest :: rsub.2 ++ rrest.2)
        | .commit _ => checkout_go store fuel rest path

/-- Entry point matching checkout_tree(repo, tree, path). -/
def checkout_tree (store : ObjStore) (fuel : Nat) (items : List TreeLeaf)
    (path : List (List Nat)) : Option PyErr × List FsEvent :=
  checkout_go store fuel items path

/-- The KVLM key b'parent'. -/
def parentKey : List Nat := [112, 97, 114, 101, 110, 116]

mutual

/-- Model of log_graphviz: return immediately when the identifier is in
the shared visited set, otherwise add it, resolve it (asserting it is a
commit), and recurse over its parent list, emitting a child-to-parent
edge before each recursive call.  Returns the exception raised (if any),
the edges printed, and the final visited set; the visited set is threaded
through everything, like Python's shared mutable set, so additions made
before an exception survive in the result. -/
def log_graphviz (store : ObjStore) : Nat → List Nat → List (List Nat) →
    Option PyErr × List (List Nat × List Nat) × List (List Nat)
  | 0, _, seen => (some .nonTermination, [], seen)
  | fuel + 1, sha, seen =>
    if sha ∈ seen then (none, [], seen)
    else
      let seen1 := sha :: seen
      match storeLookup store sha with
      | none => (some .notFound, [], seen1)
      | some (.commit kvlm) =>
        match kvlmLookup kvlm parentKey with
        | none => (none, [], seen1)
        | some v => logParents store fuel sha (kvlmVals v) seen1
      | some _ => (some .assertionError, [], seen1)

/-- The for-loop of log_graphviz over the parent identifiers: print the
edge, then recurse; an exception aborts the remainder of the loop. -/
def logParents (store : ObjStore) : Nat → List Nat → List (List Nat) →
    List (List Nat) → Option PyErr × List (List Nat × List Nat) × List (List Nat)
  | _, _, [], seen => (none, [], seen)
  | fuel, sha, p :: ps, seen =>
    let r := log_graphviz store fuel p seen
    match r.1 with
    | some err => (some err, (sha, p) :: r.2.1, r.2.2)
    | none =>
      let r2 := logParents store fuel sha ps r.2.2
      (r2.1, (sha, p) :: r.2.1 ++ r2.2.1, r2.2.2)

end

/-- Boolean membership of an identifier in a list of identifiers. -/
def memList (x : List Nat) : List (List Nat) → Bool
  | [] => false
  | y :: ys => if y = x then true else memList x ys

/-- Number of store keys not yet in the visited set: the measure showing
the walk needs only boundedly many stack frames on any store. -/
def countUnseen (store : ObjStore) (seen : List (List Nat)) : Nat :=
  ((store.map Prod.fst).filter (fun k => !(memList k seen))).length

/-- Validity of a tree entry exactly as the specification states it: the
mode is a byte string of 5 or 6 octal digits, the path is a NUL-free byte
string, and the identifier is a 40-character lowercase hexadecimal
string. -/
def validEntry (e : TreeLeaf) : Prop :=
  (e.mode.length = 5 ∨ e.mode.length = 6) ∧
  (∀ b ∈ e.mode, 48 ≤ b ∧ b ≤ 55) ∧
  (∀ b ∈ e.path, b ≠ 0 ∧ b < 256) ∧
  e.sha.length = 40 ∧
  (∀ c ∈ e.sha, (48 ≤ c ∧ c ≤ 57) ∨ (97 ≤ c ∧ c ≤ 102))

/-- Decidability of entry validity, so witnesses can be checked by decide. -/
instance (e : TreeLeaf) : Decidable (validEntry e) := by
  unfold validEntry; infer_instance

/-- Well-formedness of a decoded object per the specification's data
model: blobs are unconstrained, a tree's entries are valid, and a commit
carries any mapping (what write_object can persist of it is constrained
by its own codec). -/
def objValid : ObjVal → Prop
  | .blob _ => True
  | .tree items => ∀ e ∈ items, validEntry e
  | .commit _ => True

/-- Decidability of object validity. -/
instance (v : ObjVal) : Decidable (objValid v) := by
  cases v <;> (unfold objValid; infer_instance)

theorem valueBE_append_single (b : Nat) (l : List Nat) (d : Nat) :
    valueBE b (l ++ [d]) = b * valueBE b l + d := by
  simp [valueBE, List.foldl_append]

theorem digitsBEPad_succ (b w n : Nat) :
    digitsBEPad b (w + 1) n = digitsBEPad b w (n / b) ++ [n % b] := by
  unfold digitsBEPad
  rw [List.range_succ, List.map_append]
  congr 1
  · apply List.map_congr_left
    intro i hi
    rw [List.mem_range] at hi
    have h1 : w + 1 - 1 - i = (w - 1 - i) + 1 := by omega
    rw [h1, pow_succ', ← Nat.div_div_eq_div_mul]
  · simp

theorem valueBE_digitsBEPad (b w : Nat) (_hb : 0 < b) (n : Nat) :
    valueBE b (digitsBEPad b w n) = n % b ^ w := by
  induction w generalizing n with
  | zero => simp [valueBE, digitsBEPad, Nat.mod_one]
  | succ w ih =>
    rw [digitsBEPad_succ, valueBE_append_single, ih (n / b), pow_succ', Nat.mod_mul]
    ring

theorem digitsBEPad_length (b w n : Nat) : (digitsBEPad b w n).length = w := by
  simp [digitsBEPad]

theorem digitsBEPad_lt (b w n : Nat) (hb : 0 < b) : ∀ d ∈ digitsBEPad b w n, d < b := by
  intro d hd
  simp only [digitsBEPad, List.mem_map] at hd
  obtain ⟨i, _, rfl⟩ := hd
  exact Nat.mod_lt _ hb

theorem valueBE_lt (b : Nat) (_hb : 0 < b) (l : List Nat) (h : ∀ d ∈ l, d < b) :
    valueBE b l < b ^ l.length := by
  induction l using List.reverseRecOn with
  | nil => simp [valueBE]
  | append_singleton l d ih =>
    rw [valueBE_append_single, List.length_append, List.length_singleton, pow_succ]
    have hv : valueBE b l < b ^ l.length := ih (fun x hx => h x (by simp [hx]))
    have hd : d < b := h d (by simp)
    calc b * valueBE b l + d < b * valueBE b l + b := by omega
    _ = b * (valueBE b l + 1) := by ring
    _ ≤ b * b ^ l.length := Nat.mul_le_mul_left b hv
    _ = b ^ l.length * b := Nat.mul_comm _ _

theorem digitsBEPad_valueBE (b : Nat) (hb : 0 < b) (l : List Nat) (h : ∀ d ∈ l, d < b) :
    digitsBEPad b l.length (valueBE b l) = l := by
  induction l using List.reverseRecOn with
  | nil => simp [digitsBEPad]
  | append_singleton l d ih =>
    have hd : d < b := h d (by simp)
    rw [List.length_append, List.length_singleton, digitsBEPad_succ,
        valueBE_append_single]
    have h1 : (b * valueBE b l + d) / b = valueBE b l := by
      rw [Nat.mul_add_div hb, Nat.div_eq_of_lt hd, Nat.add_zero]
    have h2 : (b * valueBE b l + d) % b = d := by
      rw [Nat.mul_add_mod, Nat.mod_eq_of_lt hd]
    rw [h1, h2, ih (fun x hx => h x (by simp [hx]))]

theorem natDigitsRev_lt (fuel n : Nat) : ∀ d ∈ natDigitsRev fuel n, d < 10 := by
  induction fuel generalizing n with
  | zero => simp [natDigitsRev]
  | succ fuel ih =>
    intro d hd
    unfold natDigitsRev at hd
    by_cases h : n = 0
    · simp [h] at hd
    · rw [if_neg h] at hd
      rcases List.mem_cons.mp hd with rfl | hd
      · exact Nat.mod_lt _ (by omega)
      · exact ih (n / 10) d hd

theorem natDigitsRev_ne_nil (fuel n : Nat) (hn : n ≠ 0) (hf : fuel ≠ 0) :
    natDigitsRev fuel n ≠ [] := by
  cases fuel with
  | zero => exact absurd rfl hf
  | succ fuel =>
    unfold natDigitsRev
    rw [if_neg hn]
    simp

theorem valueBE_natDigitsRev (fuel n : Nat) (h : n ≤ fuel) :
    valueBE 10 (natDigitsRev fuel n).reverse = n := by
  induction fuel generalizing n with
  | zero =>
    have : n = 0 := by omega
    simp [natDigitsRev, valueBE, this]
  | succ fuel ih =>
    unfold natDigitsRev
    by_cases hn : n = 0
    · simp [hn, valueBE]
    · rw [if_neg hn]
      rw [List.reverse_cons, valueBE_append_single]
      have hdiv : n / 10 ≤ fuel := by
        have h1 : n / 10 < n := Nat.div_lt_self (by omega) (by omega)
        omega
      rw [ih (n / 10) hdiv]
      omega

theorem strNat_mem_range (n : Nat) : ∀ c ∈ strNat n, 48 ≤ c ∧ c ≤ 57 := by
  intro c hc
  unfold strNat at hc
  by_cases h : n = 0
  · simp [h] at hc; omega
  · rw [if_neg h] at hc
    simp only [List.mem_map, List.mem_reverse] at hc
    obtain ⟨d, hd, rfl⟩ := hc
    have := natDigitsRev_lt n n d hd
    omega

theorem strNat_ne_nil (n : Nat) : strNat n ≠ [] := by
  unfold strNat
  by_cases h : n = 0
  · simp [h]
  · rw [if_neg h]
    intro hc
    have h1 := natDigitsRev_ne_nil n n h h
    have h2 := List.map_eq_nil_iff.mp hc
    exact h1 (by simpa using h2)

theorem dropWhile_eq_self_of_forall (p : Nat → Bool) (l : List Nat)
    (h : ∀ c ∈ l, p c = false) : l.dropWhile p = l := by
  cases l with
  | nil => rfl
  | cons c rest => rw [List.dropWhile_cons, h c (by simp)]; simp

theorem stripWs_digits (l : List Nat) (h : ∀ c ∈ l, 48 ≤ c ∧ c ≤ 57) :
    stripWs (32 :: l) = l := by
  have hnw : ∀ c ∈ l, isWsByte c = false := by
    intro c hc
    have := h c hc
    simp only [isWsByte, decide_eq_false_iff_not]
    omega
  have h1 : (32 :: l).dropWhile isWsByte = l := by
    rw [List.dropWhile_cons, if_pos (by simp [isWsByte])]
    exact dropWhile_eq_self_of_forall isWsByte l hnw
  unfold stripWs
  rw [h1, dropWhile_eq_self_of_forall isWsByte l.reverse
      (fun c hc => hnw c (List.mem_reverse.mp hc)), List.reverse_reverse]

theorem allDigitsVal_strNat (n : Nat) : allDigitsVal (strNat n) = some n := by
  have hdig := strNat_mem_range n
  have hne := strNat_ne_nil n
  have hie : (strNat n).isEmpty = false := by
    cases hs : strNat n with
    | nil => exact absurd hs hne
    | cons c rest => rfl
  have hall : (strNat n).all isDigitByte = true := by
    simp only [List.all_eq_true]
    intro x hx
    have := hdig x hx
    simp only [isDigitByte, decide_eq_true_eq]
    omega
  unfold allDigitsVal
  rw [hie]
  simp only [Bool.false_eq_true, if_false]
  rw [if_pos hall]
  · congr 1
    unfold strNat
    by_cases h0 : n = 0
    · simp [h0, valueBE]
    · rw [if_neg h0, List.map_map]
      have hmap : ((fun c => c - 48) ∘ fun d => d + 48) = id := by
        funext d; simp
      rw [hmap, List.map_id, valueBE_natDigitsRev n n (by omega)]

theorem pyIntBytes_space_strNat (n : Nat) : pyIntBytes (32 :: strNat n) = some (n : Int) := by
  have hdig := strNat_mem_range n
  have hne := strNat_ne_nil n
  have hstrip : stripWs (32 :: strNat n) = strNat n := stripWs_digits _ hdig
  have hany : ((32 :: strNat n).any fun b => decide (128 ≤ b)) = false := by
    simp only [List.any_eq_false, decide_eq_true_eq]
    intro b hb
    rcases List.mem_cons.mp hb with rfl | hb
    · omega
    · have := hdig b hb; omega
  have hie : (strNat n).isEmpty = false := by
    cases hs : strNat n with
    | nil => exact absurd hs hne
    | cons c rest => rfl
  have hhead : 48 ≤ (strNat n).headD 0 ∧ (strNat n).headD 0 ≤ 57 := by
    cases hs : strNat n with
    | nil => exact absurd hs hne
    | cons c rest =>
      have := hdig c (by rw [hs]; simp)
      simpa using this
  unfold pyIntBytes
  rw [hstrip, hany, hie]
  simp only [Bool.false_eq_true, if_false]
  rw [if_neg (by omega), if_neg (by omega), allDigitsVal_strNat]
  rfl

theorem findFromIdx_append_not_mem (A l : List Nat) (t : Nat) (hA : ∀ b ∈ A, b ≠ t) :
    findFromIdx (A ++ l) t = (findFromIdx l t).map (fun i => A.length + i) := by
  induction A with
  | nil => cases h : findFromIdx l t <;> simp [h]
  | cons a A ih =>
    rw [List.cons_append]
    simp only [findFromIdx]
    rw [if_neg (hA a (by simp)), ih (fun b hb => hA b (by simp [hb]))]
    cases findFromIdx l t with
    | none => simp
    | some i => simp; omega

theorem pyFind_from (A B l : List Nat) (t : Nat) (hB : ∀ b ∈ B, b ≠ t) :
    pyFind (A ++ (B ++ t :: l)) t (A.length : Int) = ((A.length + B.length : Nat) : Int) := by
  unfold pyFind
  rw [if_neg (by omega)]
  have hs : (A.length : Int).toNat = A.length := by omega
  rw [hs]
  simp only []
  rw [List.drop_left, findFromIdx_append_not_mem B (t :: l) t hB]
  have h0 : findFromIdx (t :: l) t = some 0 := by simp [findFromIdx]
  rw [h0]
  simp

theorem clampIdx_coe (k n : Nat) (h : k ≤ n) : clampIdx (k : Int) n = k := by
  unfold clampIdx
  rw [if_neg (by omega)]
  omega

theorem clampIdx_zero (n : Nat) : clampIdx 0 n = 0 := by
  unfold clampIdx
  rw [if_neg (by omega)]
  omega

theorem pySlice_prefix (A l : List Nat) : pySlice (A ++ l) 0 (A.length : Int) = A := by
  unfold pySlice
  rw [clampIdx_zero, clampIdx_coe A.length _ (by simp), List.drop_zero, List.take_left]

theorem pySlice_middle (A B C : List Nat) :
    pySlice (A ++ B ++ C) (A.length : Int) ((A.length + B.length : Nat) : Int) = B := by
  unfold pySlice
  rw [clampIdx_coe A.length _ (by simp),
      clampIdx_coe (A.length + B.length) _ (by simp)]
  have h1 : (A ++ B ++ C).take (A.length + B.length) = A ++ B := by
    rw [← List.length_append]
    exact List.take_left (A ++ B) C
  rw [h1, List.drop_left]

theorem pySlice_suffix (A l : List Nat) :
    pySlice (A ++ l) (A.length : Int) ((A ++ l).length : Int) = l := by
  unfold pySlice
  rw [clampIdx_coe A.length _ (by simp), clampIdx_coe (A ++ l).length _ (by simp),
      List.take_length, List.drop_left]

theorem tag_bytes_ne_32 (t : List Nat) (ht : t = blobTag ∨ t = treeTag ∨ t = commitTag) :
    ∀ b ∈ t, b ≠ 32 := by
  rcases ht with rfl | rfl | rfl <;> decide

theorem envelope_roundtrip_core (t p : List Nat)
    (ht : t = blobTag ∨ t = treeTag ∨ t = commitTag) :
    decodeEnvelope (encodeEnvelope t p) = .ok (t, p) := by
  have h32 : ∀ b ∈ t, b ≠ 32 := tag_bytes_ne_32 t ht
  have henc : encodeEnvelope t p = t ++ (32 :: strNat p.length ++ 0 :: p) := by
    unfold encodeEnvelope; simp
  have hfs : pyFind (encodeEnvelope t p) 32 0 = (t.length : Int) := by
    have := pyFind_from [] t (strNat p.length ++ 0 :: p) 32 h32
    rw [henc]
    simpa using this
  have hfmt : pySlice (encodeEnvelope t p) 0 (t.length : Int) = t := by
    rw [henc]; exact pySlice_prefix t _
  have hdsne0 : ∀ b ∈ 32 :: strNat p.length, b ≠ 0 := by
    intro b hb
    rcases List.mem_cons.mp hb with rfl | hb
    · omega
    · have := strNat_mem_range p.length b hb; omega
  have hfn : pyFind (encodeEnvelope t p) 0 (t.length : Int) =
      ((t.length + (1 + (strNat p.length).length) : Nat) : Int) := by
    have := pyFind_from t (32 :: strNat p.length) p 0 hdsne0
    rw [henc]
    simpa [List.cons_append, Nat.add_comm] using this
  have hsz : pySlice (encodeEnvelope t p) (t.length : Int)
      ((t.length + (1 + (strNat p.length).length) : Nat) : Int) = 32 :: strNat p.length := by
    have := pySlice_middle t (32 :: strNat p.length) (0 :: p)
    rw [henc]
    simpa [List.cons_append, List.append_assoc, Nat.add_comm] using this
  have hlen : (encodeEnvelope t p).length =
      t.length + (1 + (strNat p.length).length) + 1 + p.length := by
    rw [henc]; simp; omega
  have hpay : pySlice (encodeEnvelope t p)
      (((t.length + (1 + (strNat p.length).length) : Nat) : Int) + 1)
      ((encodeEnvelope t p).length : Int) = p := by
    have heq : encodeEnvelope t p = (t ++ 32 :: strNat p.length ++ [0]) ++ p := by
      rw [henc]; simp
    have hlen2 : (t ++ 32 :: strNat p.length ++ [0]).length =
        t.length + (1 + (strNat p.length).length) + 1 := by simp; omega
    have := pySlice_suffix (t ++ 32 :: strNat p.length ++ [0]) p
    rw [heq]
    rw [hlen2] at this
    have hcast : (((t.length + (1 + (strNat p.length).length) : Nat) : Int) + 1) =
        ((t.length + (1 + (strNat p.length).length) + 1 : Nat) : Int) := by push_cast; ring
    rw [hcast]
    exact this
  unfold decodeEnvelope
  rw [hfs]
  simp only []
  rw [hfmt, if_pos (by tauto), hfn, hsz, pyIntBytes_space_strNat]
  simp only []
  have hcond : ((p.length : Int) =
      ((encodeEnvelope t p).length : Int) -
        ((t.length + (1 + (strNat p.length).length) : Nat) : Int) - 1) := by
    rw [hlen]; push_cast; ring
  rw [if_pos hcond, hpay]

theorem hexChar_hexDigitVal (c : Nat) (h : (48 ≤ c ∧ c ≤ 57) ∨ (97 ≤ c ∧ c ≤ 102)) :
    hexChar (hexDigitVal c) = c := by
  unfold hexChar hexDigitVal
  split_ifs <;> omega

theorem hexDigitVal_lt (c : Nat) (h : (48 ≤ c ∧ c ≤ 57) ∨ (97 ≤ c ∧ c ≤ 102)) :
    hexDigitVal c < 16 := by
  unfold hexDigitVal
  split_ifs <;> omega

theorem hexParse_of_valid (s : List Nat) (hne : s ≠ [])
    (h : ∀ c ∈ s, (48 ≤ c ∧ c ≤ 57) ∨ (97 ≤ c ∧ c ≤ 102)) :
    hexParse s = some (valueBE 16 (s.map hexDigitVal)) := by
  unfold hexParse
  have hie : s.isEmpty = false := by
    cases s with
    | nil => exact absurd rfl hne
    | cons c rest => rfl
  have hall : s.all isHexByte = true := by
    simp only [List.all_eq_true]
    intro c hc
    have := h c hc
    simp only [isHexByte, decide_eq_true_eq]
    omega
  rw [hie, if_pos hall]
  simp

theorem shaVal_lt (s : List Nat) (hlen : s.length = 40)
    (h : ∀ c ∈ s, (48 ≤ c ∧ c ≤ 57) ∨ (97 ≤ c ∧ c ≤ 102)) :
    valueBE 16 (s.map hexDigitVal) < 256 ^ 20 := by
  have hdig : ∀ d ∈ s.map hexDigitVal, d < 16 := by
    intro d hd
    simp only [List.mem_map] at hd
    obtain ⟨c, hc, rfl⟩ := hd
    exact hexDigitVal_lt c (h c hc)
  have := valueBE_lt 16 (by omega) (s.map hexDigitVal) hdig
  have h40 : (s.map hexDigitVal).length = 40 := by simp [hlen]
  rw [h40] at this
  have hpow : (16 : Nat) ^ 40 = 256 ^ 20 := by
    have : (256 : Nat) = 16 ^ 2 := by norm_num
    rw [this, ← pow_mul]
  rw [hpow] at this
  exact this

theorem natToHex40_valueBE (s : List Nat) (hlen : s.length = 40)
    (h : ∀ c ∈ s, (48 ≤ c ∧ c ≤ 57) ∨ (97 ≤ c ∧ c ≤ 102)) :
    natToHex40 (valueBE 16 (s.map hexDigitVal)) = s := by
  unfold natToHex40
  have hdig : ∀ d ∈ s.map hexDigitVal, d < 16 := by
    intro d hd
    simp only [List.mem_map] at hd
    obtain ⟨c, hc, rfl⟩ := hd
    exact hexDigitVal_lt c (h c hc)
  have h40 : (s.map hexDigitVal).length = 40 := by simp [hlen]
  rw [← h40, digitsBEPad_valueBE 16 (by omega) _ hdig, List.map_map]
  have hcongr : ∀ c ∈ s, (hexChar ∘ hexDigitVal) c = id c := by
    intro c hc
    simp only [Function.comp_apply, id_eq]
    exact hexChar_hexDigitVal c (h c hc)
  rw [List.map_congr_left hcongr, List.map_id]

theorem valueBE256_digitsBEPad (v : Nat) (hv : v < 256 ^ 20) :
    valueBE 256 (digitsBEPad 256 20 v) = v := by
  rw [valueBE_digitsBEPad 256 20 (by omega) v, Nat.mod_eq_of_lt hv]

theorem serialize_tree_ok (E : List TreeLeaf) (hE : ∀ e ∈ E, validEntry e) :
    serialize_tree E = .ok (serEntries E) := by
  induction E with
  | nil => rfl
  | cons e rest ih =>
    obtain ⟨hmLen, hmOct, hPath, hShaLen, hShaHex⟩ := hE e (by simp)
    have hne : e.sha ≠ [] := by
      intro hc
      rw [hc] at hShaLen
      simp at hShaLen
    have hparse : hexParse e.sha = some (valueBE 16 (e.sha.map hexDigitVal)) :=
      hexParse_of_valid e.sha hne hShaHex
    have hlt := shaVal_lt e.sha hShaLen hShaHex
    simp only [serialize_tree]
    rw [hparse]
    simp only []
    rw [if_pos hlt, ih (fun x hx => hE x (by simp [hx]))]
    simp [serEntries, entryBytes]

theorem entryBytes_length_pos (e : TreeLeaf) : 0 < (entryBytes e).length := by
  simp [entryBytes]

theorem serEntries_length_ge (E : List TreeLeaf) : E.length ≤ (serEntries E).length := by
  induction E with
  | nil => simp [serEntries]
  | cons e rest ih =>
    have := entryBytes_length_pos e
    simp only [serEntries, List.length_append, List.length_cons]
    omega

theorem parse_tree_leaf_at (A B : List Nat) (e : TreeLeaf) (he : validEntry e) :
    parse_tree_leaf (A ++ (entryBytes e ++ B)) (A.length : Int) =
      .ok (((A.length + (entryBytes e).length : Nat) : Int), e) := by
  obtain ⟨hmLen, hmOct, hPath, hShaLen, hShaHex⟩ := he
  have hmode32 : ∀ b ∈ e.mode, b ≠ 32 := by
    intro b hb; have := hmOct b hb; omega
  have hpath0 : ∀ b ∈ 32 :: e.path, b ≠ 0 := by
    intro b hb
    rcases List.mem_cons.mp hb with rfl | hb
    · omega
    · exact (hPath b hb).1
  have hlt := shaVal_lt e.sha hShaLen hShaHex
  have hsha20 : (digitsBEPad 256 20 (valueBE 16 (e.sha.map hexDigitVal))).length = 20 :=
    digitsBEPad_length 256 20 _
  have hgroup : A ++ (entryBytes e ++ B) =
      A ++ (e.mode ++ 32 :: (e.path ++ 0 ::
        (digitsBEPad 256 20 (valueBE 16 (e.sha.map hexDigitVal)) ++ B))) := by
    simp [entryBytes]
  have hspace : pyFind (A ++ (entryBytes e ++ B)) 32 (A.length : Int) =
      ((A.length + e.mode.length : Nat) : Int) := by
    rw [hgroup]
    exact pyFind_from A e.mode _ 32 hmode32
  have hgroup2 : A ++ (entryBytes e ++ B) =
      (A ++ e.mode) ++ ((32 :: e.path) ++ 0 ::
        (digitsBEPad 256 20 (valueBE 16 (e.sha.map hexDigitVal)) ++ B)) := by
    simp [entryBytes]
  have hnull : pyFind (A ++ (entryBytes e ++ B)) 0
      ((A.length + e.mode.length : Nat) : Int) =
      ((A.length + e.mode.length + (1 + e.path.length) : Nat) : Int) := by
    have h1 := pyFind_from (A ++ e.mode) (32 :: e.path)
      (digitsBEPad 256 20 (valueBE 16 (e.sha.map hexDigitVal)) ++ B) 0 hpath0
    rw [hgroup2]
    have hstart : ((A.length + e.mode.length : Nat) : Int) =
        ((A ++ e.mode).length : Int) := by simp
    rw [hstart, h1]
    simp only [List.length_append, List.length_cons]
    omega
  have hmode : pySlice (A ++ (entryBytes e ++ B)) (A.length : Int)
      ((A.length + e.mode.length : Nat) : Int) = e.mode := by
    have h1 := pySlice_middle A e.mode
      (32 :: (e.path ++ 0 :: (digitsBEPad 256 20 (valueBE 16 (e.sha.map hexDigitVal)) ++ B)))
    rw [hgroup]
    rw [List.append_assoc] at h1
    exact h1
  have hpathsl : pySlice (A ++ (entryBytes e ++ B))
      (((A.length + e.mode.length : Nat) : Int) + 1)
      ((A.length + e.mode.length + (1 + e.path.length) : Nat) : Int) = e.path := by
    have h1 := pySlice_middle (A ++ e.mode ++ [32]) e.path
      (0 :: (digitsBEPad 256 20 (valueBE 16 (e.sha.map hexDigitVal)) ++ B))
    have hlen1 : (A ++ e.mode ++ [32]).length = A.length + e.mode.length + 1 := by
      simp; omega
    rw [hlen1] at h1
    have hshape : (A ++ e.mode ++ [32]) ++ (e.path ++
        (0 :: (digitsBEPad 256 20 (valueBE 16 (e.sha.map hexDigitVal)) ++ B))) =
        A ++ (entryBytes e ++ B) := by
      simp [entryBytes]
    rw [List.append_assoc] at h1
    rw [hshape] at h1
    have hc1 : ((A.length + e.mode.length + 1 : Nat) : Int) =
        ((A.length + e.mode.length : Nat) : Int) + 1 := by push_cast; ring
    have hc2 : (A.length + e.mode.length + 1 + e.path.length : Nat) =
        (A.length + e.mode.length + (1 + e.path.length) : Nat) := by omega
    rw [hc1, hc2] at h1
    exact h1
  have hshasl : pySlice (A ++ (entryBytes e ++ B))
      (((A.length + e.mode.length + (1 + e.path.length) : Nat) : Int) + 1)
      (((A.length + e.mode.length + (1 + e.path.length) : Nat) : Int) + 21) =
      digitsBEPad 256 20 (valueBE 16 (e.sha.map hexDigitVal)) := by
    have h1 := pySlice_middle (A ++ e.mode ++ [32] ++ e.path ++ [0])
      (digitsBEPad 256 20 (valueBE 16 (e.sha.map hexDigitVal))) B
    have hlen1 : (A ++ e.mode ++ [32] ++ e.path ++ [0]).length =
        A.length + e.mode.length + (1 + e.path.length) + 1 := by
      simp; omega
    rw [hlen1, hsha20] at h1
    have hshape : A ++ e.mode ++ [32] ++ e.path ++ [0] ++
        digitsBEPad 256 20 (valueBE 16 (e.sha.map hexDigitVal)) ++ B =
        A ++ (entryBytes e ++ B) := by
      simp [entryBytes]
    rw [hshape] at h1
    have hc1 : ((A.length + e.mode.length + (1 + e.path.length) + 1 : Nat) : Int) =
        ((A.length + e.mode.length + (1 + e.path.length) : Nat) : Int) + 1 := by
      push_cast; ring
    have hc2 : ((A.length + e.mode.length + (1 + e.path.length) + 1 + 20 : Nat) : Int) =
        ((A.length + e.mode.length + (1 + e.path.length) : Nat) : Int) + 21 := by
      push_cast; ring
    rw [hc1, hc2] at h1
    exact h1
  unfold parse_tree_leaf
  rw [hspace]
  simp only []
  rw [if_pos (by push_cast; omega), hnull, hmode, hpathsl, hshasl,
      valueBE256_digitsBEPad _ hlt, natToHex40_valueBE e.sha hShaLen hShaHex]
  have hpos : ((A.length + e.mode.length + (1 + e.path.length) : Nat) : Int) + 21 =
      ((A.length + (entryBytes e).length : Nat) : Int) := by
    have : (entryBytes e).length = e.mode.length + 1 + e.path.length + 1 + 20 := by
      simp [entryBytes, hsha20]; omega
    rw [this]; push_cast; ring
  rw [hpos]

theorem parse_tree_go_ok (E : List TreeLeaf) (hE : ∀ e ∈ E, validEntry e) :
    ∀ fuel A acc, E.length < fuel →
      parse_tree_go (A ++ serEntries E) fuel (A.length : Int) acc = .ok (acc ++ E) := by
  induction E with
  | nil =>
    intro fuel A acc hf
    cases fuel with
    | zero => omega
    | succ f =>
      simp only [serEntries, parse_tree_go, List.append_nil]
      rw [if_neg (by simp)]
  | cons e rest ih =>
    intro fuel A acc hf
    cases fuel with
    | zero => simp at hf
    | succ f =>
      have hehead : validEntry e := hE e (by simp)
      have hpos : 0 < (entryBytes e).length := entryBytes_length_pos e
      simp only [serEntries, parse_tree_go]
      rw [if_pos (by simp [serEntries]; omega)]
      rw [parse_tree_leaf_at A (serEntries rest) e hehead]
      simp only []
      have hgroup : A ++ (entryBytes e ++ serEntries rest) =
          (A ++ entryBytes e) ++ serEntries rest := by simp
      have hlen : (A.length + (entryBytes e).length : Nat) =
          (A ++ entryBytes e).length := by simp
      rw [hgroup, hlen, ih (fun x hx => hE x (by simp [hx])) f (A ++ entryBytes e)
        (acc ++ [e]) (by simp at hf; omega)]
      simp

theorem tree_roundtrip_core (E : List TreeLeaf) (hE : ∀ e ∈ E, validEntry e) :
    parse_tree (serEntries E) = .ok E := by
  unfold parse_tree
  have hlen : E.length < (serEntries E).length + 1 := by
    have := serEntries_length_ge E
    omega
  have h := parse_tree_go_ok E hE ((serEntries E).length + 1) [] [] hlen
  simpa using h

theorem serialize_kvlm_ok_shape (kvlm : Kvlm) (data : List Nat)
    (h : serialize_kvlm kvlm = .ok data) :
    ∃ m, data = 10 :: m ∧ kvlmLookup kvlm [] = some (.scalar m) := by
  unfold serialize_kvlm at h
  by_cases hany : kvlm.any kvlmEmitsLine = true
  · rw [if_pos hany] at h
    simp at h
  · rw [if_neg hany] at h
    cases hlook : kvlmLookup kvlm [] with
    | none => rw [hlook] at h; simp at h
    | some v =>
      cases v with
      | scalar m =>
        rw [hlook] at h
        simp only [PRes.ok.injEq] at h
        exact ⟨m, h.symm, rfl⟩
      | list vs => rw [hlook] at h; simp at h

theorem parse_lvlm_message (m : List Nat) : parse_lvlm (10 :: m) = .ok [([], .scalar m)] := by
  unfold parse_lvlm
  have hfuel : (10 :: m).length + 2 = (m.length + 2) + 1 := by simp
  rw [hfuel]
  simp only [parse_lvlm_go]
  have hnl : pyFind (10 :: m) 10 0 = 0 := by
    simp [pyFind, findFromIdx]
  have hsl : pySlice (10 :: m) (0 + 1) ((10 :: m).length : Int) = m := by
    have h1 := pySlice_suffix [10] m
    simp only [List.singleton_append, List.length_singleton] at h1
    have hc1 : ((0 : Int) + 1) = ((1 : Nat) : Int) := by norm_num
    have hc2 : (((10 :: m) : List Nat).length : Int) = (([10] ++ m).length : Int) := by simp
    rw [hc1, hc2]
    simpa using h1
  rw [hnl]
  cases hsp : findFromIdx m 32 with
  | none =>
    have hspace : pyFind (10 :: m) 32 0 = -1 := by
      simp [pyFind, findFromIdx, hsp]
    rw [hspace]
    rw [if_pos (by left; norm_num)]
    rw [if_pos rfl, hsl]
    rfl
  | some i =>
    have hspace : pyFind (10 :: m) 32 0 = ((i + 1 : Nat) : Int) := by
      simp [pyFind, findFromIdx, hsp]
    rw [hspace]
    rw [if_pos (by right; push_cast; omega)]
    rw [if_pos rfl, hsl]
    rfl

theorem filter_length_le_of_imp {α : Type} (l : List α) (p q : α → Bool)
    (h : ∀ a, p a = true → q a = true) : (l.filter p).length ≤ (l.filter q).length := by
  induction l with
  | nil => simp
  | cons a l ih =>
    simp only [List.filter_cons]
    by_cases hp : p a = true
    · rw [if_pos hp, if_pos (h a hp)]
      simpa using ih
    · rw [if_neg hp]
      by_cases hq : q a = true
      · rw [if_pos hq]
        simp only [List.length_cons]
        omega
      · rw [if_neg hq]
        exact ih

theorem memList_iff (x : List Nat) (s : List (List Nat)) : memList x s = true ↔ x ∈ s := by
  induction s with
  | nil => simp [memList]
  | cons y ys ih =>
    simp only [memList, List.mem_cons]
    by_cases h : y = x
    · simp [h]
    · rw [if_neg h, ih]
      exact ⟨Or.inr, fun hh => hh.elim (fun he => absurd he.symm h) id⟩

theorem memList_false_iff (x : List Nat) (s : List (List Nat)) :
    memList x s = false ↔ x ∉ s := by
  constructor
  · intro h hc
    rw [(memList_iff x s).mpr hc] at h
    simp at h
  · intro h
    cases hb : memList x s with
    | false => rfl
    | true => exact absurd ((memList_iff x s).mp hb) h

theorem countUnseen_mono (store : ObjStore) (s t : List (List Nat))
    (h : ∀ x ∈ s, x ∈ t) : countUnseen store t ≤ countUnseen store s := by
  apply filter_length_le_of_imp
  intro a ha
  simp only [Bool.not_eq_true'] at ha ⊢
  rw [memList_false_iff] at ha ⊢
  intro hc
  exact ha (h a hc)

theorem countUnseen_cons_lt (store : ObjStore) (seen : List (List Nat)) (sha : List Nat)
    (hmem : sha ∈ store.map Prod.fst) (hnot : sha ∉ seen) :
    countUnseen store (sha :: seen) < countUnseen store seen := by
  unfold countUnseen
  revert hmem
  generalize store.map Prod.fst = l
  intro hmem
  induction l with
  | nil => simp at hmem
  | cons x l ih =>
    simp only [List.filter_cons]
    by_cases hxa : x = sha
    · subst hxa
      rw [if_neg (by simp [memList]), if_pos (by simp [Bool.not_eq_true', memList_false_iff, hnot])]
      have hle := filter_length_le_of_imp l
        (fun k => !(memList k (x :: seen))) (fun k => !(memList k seen))
        (by
          intro k hk
          simp only [Bool.not_eq_true', memList_false_iff] at hk ⊢
          intro hks
          exact hk (by simp [hks]))
      simp only [List.length_cons]
      omega
    · have hmem' : sha ∈ l := by
        rcases List.mem_cons.mp hmem with h | h
        · exact absurd h.symm hxa
        · exact h
      by_cases hx : x ∈ seen
      · rw [if_neg (by simp [Bool.not_eq_true', memList_false_iff, hx]),
            if_neg (by simp [Bool.not_eq_true', memList_false_iff, hx])]
        exact ih hmem'
      · have hx2 : x ∉ sha :: seen := by
          intro hc
          rcases List.mem_cons.mp hc with h | h
          · exact hxa h
          · exact hx h
        rw [if_pos (by simp [Bool.not_eq_true', memList_false_iff, hx2]),
            if_pos (by simp [Bool.not_eq_true', memList_false_iff, hx])]
        simp only [List.length_cons]
        have := ih hmem'
        omega

theorem storeLookup_mem {store : ObjStore} {sha : List Nat} {v : ObjVal}
    (h : storeLookup store sha = some v) : sha ∈ store.map Prod.fst := by
  induction store with
  | nil => simp [storeLookup] at h
  | cons kv rest ih =>
    obtain ⟨k, b⟩ := kv
    simp only [storeLookup] at h
    by_cases hk : k = sha
    · subst hk; simp
    · rw [if_neg hk] at h
      simp only [List.map_cons, List.mem_cons]
      exact Or.inr (ih h)

theorem logParents_seen_shape_of (store : ObjStore) (fuel : Nat)
    (H : ∀ sha seen, ∃ new, (log_graphviz store fuel sha seen).2.2 = new ++ seen ∧
      new.Nodup ∧ ∀ x ∈ new, x ∉ seen) :
    ∀ sha ps seen, ∃ new, (logParents store fuel sha ps seen).2.2 = new ++ seen ∧
      new.Nodup ∧ ∀ x ∈ new, x ∉ seen := by
  intro sha ps
  induction ps with
  | nil =>
    intro seen
    exact ⟨[], by simp [logParents], by simp, by simp⟩
  | cons p ps ih =>
    intro seen
    obtain ⟨n1, h1, hn1, hf1⟩ := H p seen
    simp only [logParents]
    cases herr : (log_graphviz store fuel p seen).1 with
    | some err =>
      refine ⟨n1, ?_, hn1, hf1⟩
      simpa using h1
    | none =>
      obtain ⟨n2, h2, hn2, hf2⟩ := ih ((log_graphviz store fuel p seen).2.2)
      refine ⟨n2 ++ n1, ?_, ?_, ?_⟩
      · simp only []
        rw [h2, h1, List.append_assoc]
      · rw [List.nodup_append]
        refine ⟨hn2, hn1, ?_⟩
        intro x hx2 hx1
        have := hf2 x hx2
        rw [h1] at this
        exact this (by simp [hx1])
      · intro x hx
        rcases List.mem_append.mp hx with hx | hx
        · have := hf2 x hx
          rw [h1] at this
          intro hc
          exact this (by simp [hc])
        · exact hf1 x hx

theorem log_graphviz_seen_shape (store : ObjStore) :
    ∀ fuel sha seen, ∃ new, (log_graphviz store fuel sha seen).2.2 = new ++ seen ∧
      new.Nodup ∧ ∀ x ∈ new, x ∉ seen := by
  intro fuel
  induction fuel with
  | zero =>
    intro sha seen
    exact ⟨[], by simp [log_graphviz], by simp, by simp⟩
  | succ fuel ih =>
    intro sha seen
    by_cases hmem : sha ∈ seen
    · refine ⟨[], ?_, by simp, by simp⟩
      simp only [log_graphviz]
      rw [if_pos hmem]
      rfl
    · have hfresh : ∀ x ∈ [sha], x ∉ seen := by simpa using hmem
      cases hlook : storeLookup store sha with
      | none =>
        refine ⟨[sha], ?_, by simp, hfresh⟩
        simp only [log_graphviz]
        rw [if_neg hmem, hlook]
        rfl
      | some v =>
        cases v with
        | blob d =>
          refine ⟨[sha], ?_, by simp, hfresh⟩
          simp only [log_graphviz]
          rw [if_neg hmem, hlook]
          rfl
        | tree items =>
          refine ⟨[sha], ?_, by simp, hfresh⟩
          simp only [log_graphviz]
          rw [if_neg hmem, hlook]
          rfl
        | commit kvlm =>
          cases hpar : kvlmLookup kvlm parentKey with
          | none =>
            refine ⟨[sha], ?_, by simp, hfresh⟩
            simp only [log_graphviz]
            rw [if_neg hmem, hlook]
            simp only []
            rw [hpar]
            rfl
          | some pv =>
            obtain ⟨n, hsh, hnd, hfr⟩ :=
              logParents_seen_shape_of store fuel ih sha (kvlmVals pv) (sha :: seen)
            refine ⟨n ++ [sha], ?_, ?_, ?_⟩
            · simp only [log_graphviz]
              rw [if_neg hmem, hlook]
              simp only []
              rw [hpar]
              simp only []
              rw [hsh]
              simp
            · rw [List.nodup_append]
              refine ⟨hnd, by simp, ?_⟩
              intro x hx hxs
              have := hfr x hx
              simp only [List.mem_singleton] at hxs
              subst hxs
              exact this (by simp)
            · intro x hx
              rcases List.mem_append.mp hx with hx | hx
              · have := hfr x hx
                intro hc
                exact this (by simp [hc])
              · simp only [List.mem_singleton] at hx
                subst hx
                exact hmem

theorem logParents_no_fuel_err_of (store : ObjStore) (fuel : Nat)
    (HP : ∀ sha seen, countUnseen store seen < fuel →
      (log_graphviz store fuel sha seen).1 ≠ some .nonTermination) :
    ∀ sha ps seen, countUnseen store seen < fuel →
      (logParents store fuel sha ps seen).1 ≠ some .nonTermination := by
  intro sha ps
  induction ps with
  | nil =>
    intro seen hc
    simp [logParents]
  | cons p ps ih =>
    intro seen hc
    simp only [logParents]
    cases herr : (log_graphviz store fuel p seen).1 with
    | some err =>
      have hne := HP p seen hc
      rw [herr] at hne
      simpa using hne
    | none =>
      obtain ⟨new, hsh, _, _⟩ := log_graphviz_seen_shape store fuel p seen
      have hmono : countUnseen store ((log_graphviz store fuel p seen).2.2) ≤
          countUnseen store seen := by
        rw [hsh]
        exact countUnseen_mono store seen _ (fun x hx => by simp [hx])
      have h2 := ih ((log_graphviz store fuel p seen).2.2) (lt_of_le_of_lt hmono hc)
      simpa using h2

theorem fsLookup_insert_self (fs : Fs) (k : List Nat × List Nat) (b : List Nat) :
    fsLookup (fsInsert fs k b) k = some b := by
  simp [fsInsert, fsLookup]

theorem fmtOf_mem_tags (v : ObjVal) :
    fmtOf v = blobTag ∨ fmtOf v = treeTag ∨ fmtOf v = commitTag := by
  cases v <;> simp [fmtOf]

theorem deserializeObj_blob (d : List Nat) : deserializeObj blobTag d = .ok (.blob d) := by
  unfold deserializeObj
  rw [if_neg (by decide), if_neg (by decide), if_pos rfl]

theorem deserializeObj_tree (payload : List Nat) :
    deserializeObj treeTag payload = presMap ObjVal.tree (parse_tree payload) := by
  unfold deserializeObj
  rw [if_neg (by decide), if_pos rfl]

theorem deserializeObj_commit (payload : List Nat) :
    deserializeObj commitTag payload = presMap ObjVal.commit (parse_lvlm payload) := by
  unfold deserializeObj
  rw [if_pos rfl]

theorem read_object_notFound (decomp : List Nat → List Nat) (fs : Fs) (sha : List Nat)
    (h : fsLookup fs (shaPath sha) = none) :
    read_object decomp fs sha = .error .notFound := by
  unfold read_object
  rw [h]

theorem write_read_core (comp decomp hashHex : List Nat → List Nat) (fs : Fs)
    (v : ObjVal) (sha : List Nat) (fs' : Fs)
    (hdecomp : ∀ b, decomp (comp b) = b) (hval : objValid v)
    (hw : write_object comp hashHex fs v true = .ok (sha, fs')) :
    (∃ data, serializeObj v = .ok data ∧ ∃ stored,
      fsLookup fs' (shaPath sha) = some stored ∧
      decodeEnvelope (decomp stored) = .ok (fmtOf v, data)) ∧
    (∃ v', read_object decomp fs' sha = .ok v' ∧ fmtOf v' = fmtOf v) := by
  unfold write_object at hw
  cases hser : serializeObj v with
  | error e => rw [hser] at hw; simp at hw
  | ok data =>
    rw [hser] at hw
    simp only [] at hw
    obtain ⟨hsha, hfs'⟩ : hashHex (encodeEnvelope (fmtOf v) data) = sha ∧
        fsInsert fs (shaPath (hashHex (encodeEnvelope (fmtOf v) data)))
          (comp (encodeEnvelope (fmtOf v) data)) = fs' := by
      rw [if_pos trivial] at hw
      simpa using hw
    subst hsha
    subst hfs'
    constructor
    · refine ⟨data, rfl, comp (encodeEnvelope (fmtOf v) data), fsLookup_insert_self _ _ _, ?_⟩
      rw [hdecomp]
      exact envelope_roundtrip_core _ _ (fmtOf_mem_tags v)
    · unfold read_object
      rw [fsLookup_insert_self]
      simp only []
      rw [hdecomp, envelope_roundtrip_core _ _ (fmtOf_mem_tags v)]
      simp only []
      cases v with
      | blob d =>
        have hd : d = data := by
          unfold serializeObj at hser
          simpa using hser
        subst hd
        exact ⟨ObjVal.blob d, deserializeObj_blob d, rfl⟩
      | tree items =>
        have hst : serialize_tree items = .ok data := hser
        rw [serialize_tree_ok items hval] at hst
        have hdata : serEntries items = data := by simpa using hst
        subst hdata
        refine ⟨ObjVal.tree items, ?_, rfl⟩
        rw [show fmtOf (ObjVal.tree items) = treeTag from rfl, deserializeObj_tree,
            tree_roundtrip_core items hval]
        rfl
      | commit kvlm =>
        obtain ⟨m, hdata, hlook⟩ := serialize_kvlm_ok_shape kvlm data hser
        subst hdata
        refine ⟨ObjVal.commit [([], .scalar m)], ?_, rfl⟩
        rw [show fmtOf (ObjVal.commit kvlm) = commitTag from rfl, deserializeObj_commit,
            parse_lvlm_message]
        rfl

theorem log_graphviz_no_fuel_err (store : ObjStore) :
    ∀ fuel sha seen, countUnseen store seen < fuel →
      (log_graphviz store fuel sha seen).1 ≠ some .nonTermination := by
  intro fuel
  induction fuel with
  | zero =>
    intro sha seen hc
    omega
  | succ fuel ih =>
    intro sha seen hc
    simp only [log_graphviz]
    by_cases hmem : sha ∈ seen
    · rw [if_pos hmem]; simp
    · rw [if_neg hmem]
      cases hlook : storeLookup store sha with
      | none => simp
      | some v =>
        cases v with
        | blob d => simp
        | tree items => simp
        | commit kvlm =>
          cases hpar : kvlmLookup kvlm parentKey with
          | none => simp [hpar]
          | some pv =>
            have hdec : countUnseen store (sha :: seen) < countUnseen store seen :=
              countUnseen_cons_lt store seen sha (storeLookup_mem hlook) hmem
            have hgoal := logParents_no_fuel_err_of store fuel ih sha (kvlmVals pv)
              (sha :: seen) (by omega)
            simpa [hpar] using hgoal

/-- C1 — envelope round-trip: for every payload byte string p and every
type tag t among blob, tree and commit, building the envelope exactly as
write_object does (tag, space, decimal length, NUL, payload) and parsing
it through the envelope-decoding portion of read_object succeeds with no
error and yields back exactly the pair (t, p). -/
theorem spec_C1 (t p : List Nat) (ht : t = blobTag ∨ t = treeTag ∨ t = commitTag) :
    decodeEnvelope (encodeEnvelope t p) = .ok (t, p) :=
  envelope_roundtrip_core t p ht

/-- Witness for C1 at the tree tag and a payload containing a NUL, a
space and a newline. -/
theorem spec_C1_witness :
    (treeTag = blobTag ∨ treeTag = treeTag ∨ treeTag = commitTag) ∧
    decodeEnvelope (encodeEnvelope treeTag [0, 32, 10, 255]) = .ok (treeTag, [0, 32, 10, 255]) :=
  ⟨by decide, spec_C1 treeTag [0, 32, 10, 255] (by decide)⟩

/-- C2 — the KVLM encode-decode round-trip claim fails on the code: the
header-emitting line of serialize_kvlm concatenates the name k, which is
bound nowhere in the module (a slip for key), so encoding any mapping
that has at least one header raises NameError before any bytes are
produced.  This theorem evaluates the model at the specification's own
minimal-commit scenario, the mapping from the key tree to a 40-hex
identifier together with the message "Initial commit" and a newline. -/
theorem spec_C2 :
    serialize_kvlm [([116, 114, 101, 101], KvlmVal.scalar (List.replicate 40 48)),
      ([], KvlmVal.scalar [73, 110, 105, 116, 105, 97, 108, 32, 99, 111,
        109, 109, 105, 116, 10])] = .error .nameError := by
  decide

/-- C3 — tree entry round-trip: for every ordered entry sequence whose
modes are 5 or 6 octal digits, whose paths are NUL-free byte strings and
whose identifiers are 40-character lowercase hex strings, serializing
with serialize_tree and parsing with parse_tree returns exactly the same
sequence in exactly the order supplied. -/
theorem spec_C3 (E : List TreeLeaf) (hE : ∀ e ∈ E, validEntry e) :
    presBind (serialize_tree E) parse_tree = .ok E := by
  rw [serialize_tree_ok E hE]
  exact tree_roundtrip_core E hE

/-- Witness for C3 on a two-entry list whose paths are deliberately not in
sorted order, confirming the order is preserved as supplied. -/
theorem spec_C3_witness :
    (∀ e ∈ [TreeLeaf.mk [49, 48, 48, 54, 52, 52] [98] (List.replicate 40 48),
        TreeLeaf.mk [52, 48, 48, 48, 48] [97] (List.replicate 39 48 ++ [49])], validEntry e) ∧
    presBind (serialize_tree
        [TreeLeaf.mk [49, 48, 48, 54, 52, 52] [98] (List.replicate 40 48),
         TreeLeaf.mk [52, 48, 48, 48, 48] [97] (List.replicate 39 48 ++ [49])]) parse_tree =
      .ok [TreeLeaf.mk [49, 48, 48, 54, 52, 52] [98] (List.replicate 40 48),
           TreeLeaf.mk [52, 48, 48, 48, 48] [97] (List.replicate 39 48 ++ [49])] :=
  ⟨by decide, spec_C3 _ (by decide)⟩

/-- C4 — the materialization claim fails on the code, which cannot
materialize anything: tree entry paths are byte strings (sliced out of
the raw payload by parse_tree_leaf), and joining a pathlib Path with
bytes raises TypeError, so checkout_tree raises at the destination
computation of its very first entry — after reading the object, before
creating any directory or writing any file.  The recursion slip at the
next lines (passing path instead of dest) is unreachable behind this.
Evaluated here on a store holding the blob "hi" and a subtree: checking
out a single-blob tree, and checking out a nested tree, both raise the
type error with an empty effect list — no file named by the entry's path
is ever written, so no byte-for-byte reproduction occurs. -/
theorem spec_C4 :
    checkout_tree [([1], ObjVal.blob [104, 105])] 5
        [TreeLeaf.mk [49, 48, 48, 54, 52, 52] [102] [1]] [] =
      (some .typeError, []) ∧
    checkout_tree [([2], ObjVal.tree [TreeLeaf.mk [52, 48, 48, 48, 48] [102] [1]]),
        ([1], ObjVal.blob [104, 105])] 5
        [TreeLeaf.mk [52, 48, 48, 48, 48] [100] [2]] [] =
      (some .typeError, []) := by
  decide

/-- C5 — corruption detection: whenever the decompressed envelope under a
stored identifier has a type tag other than the three known ones, or
declares a decimal length different from the actual number of payload
bytes after the NUL, read_object raises one of its two format errors and
never returns an object. -/
theorem spec_C5 (decomp : List Nat → List Nat) (fs : Fs) (sha stored raw : List Nat)
    (hfs : fsLookup fs (shaPath sha) = some stored)
    (hdec : decomp stored = raw)
    (hbad : (pySlice raw 0 (pyFind raw 32 0) ≠ commitTag ∧
             pySlice raw 0 (pyFind raw 32 0) ≠ treeTag ∧
             pySlice raw 0 (pyFind raw 32 0) ≠ blobTag) ∨
            (∃ L, pyIntBytes (pySlice raw (pyFind raw 32 0)
                (pyFind raw 0 (pyFind raw 32 0))) = some L ∧
              L ≠ (raw.length : Int) - pyFind raw 0 (pyFind raw 32 0) - 1)) :
    ∃ e, read_object decomp fs sha = .error e ∧ (e = .badType ∨ e = .badLength) := by
  unfold read_object
  rw [hfs]
  simp only []
  rw [hdec]
  unfold decodeEnvelope
  simp only []
  by_cases hfmt : (pySlice raw 0 (pyFind raw 32 0) = commitTag ∨
      pySlice raw 0 (pyFind raw 32 0) = treeTag ∨
      pySlice raw 0 (pyFind raw 32 0) = blobTag)
  · rcases hbad with ⟨h1, h2, h3⟩ | ⟨L, hL, hne⟩
    · tauto
    · rw [if_pos hfmt, hL]
      simp only []
      rw [if_neg hne]
      exact ⟨.badLength, rfl, Or.inr rfl⟩
  · rw [if_neg hfmt]
    exact ⟨.badType, rfl, Or.inl rfl⟩

/-- Witness for C5: an envelope declaring length 5 over a 2-byte payload
(b'blob 5\x00hi') stored under identifier "ab", with the identity codec. -/
theorem spec_C5_witness :
    fsLookup [(([97, 98], []), [98, 108, 111, 98, 32, 53, 0, 104, 105])]
      (shaPath [97, 98]) = some [98, 108, 111, 98, 32, 53, 0, 104, 105] ∧
    ((pySlice [98, 108, 111, 98, 32, 53, 0, 104, 105] 0
        (pyFind [98, 108, 111, 98, 32, 53, 0, 104, 105] 32 0) ≠ commitTag ∧
      pySlice [98, 108, 111, 98, 32, 53, 0, 104, 105] 0
        (pyFind [98, 108, 111, 98, 32, 53, 0, 104, 105] 32 0) ≠ treeTag ∧
      pySlice [98, 108, 111, 98, 32, 53, 0, 104, 105] 0
        (pyFind [98, 108, 111, 98, 32, 53, 0, 104, 105] 32 0) ≠ blobTag) ∨
     (∃ L, pyIntBytes (pySlice [98, 108, 111, 98, 32, 53, 0, 104, 105]
          (pyFind [98, 108, 111, 98, 32, 53, 0, 104, 105] 32 0)
          (pyFind [98, 108, 111, 98, 32, 53, 0, 104, 105] 0
            (pyFind [98, 108, 111, 98, 32, 53, 0, 104, 105] 32 0))) = some L ∧
        L ≠ (([98, 108, 111, 98, 32, 53, 0, 104, 105] : List Nat).length : Int) -
          pyFind [98, 108, 111, 98, 32, 53, 0, 104, 105] 0
            (pyFind [98, 108, 111, 98, 32, 53, 0, 104, 105] 32 0) - 1)) ∧
    (∃ e, read_object id [(([97, 98], []), [98, 108, 111, 98, 32, 53, 0, 104, 105])]
        [97, 98] = .error e ∧ (e = .badType ∨ e = .badLength)) :=
  ⟨by decide, Or.inr ⟨5, by decide, by decide⟩,
   spec_C5 id [(([97, 98], []), [98, 108, 111, 98, 32, 53, 0, 104, 105])]
     [97, 98] [98, 108, 111, 98, 32, 53, 0, 104, 105]
     [98, 108, 111, 98, 32, 53, 0, 104, 105] (by decide) rfl
     (Or.inr ⟨5, by decide, by decide⟩)⟩

/-- C6 — ancestry walk: with the caller-provided visited set shared across
the whole walk, log_graphviz visits each commit identifier at most once
(the final visited set extends the initial one by a duplicate-free list
of identifiers none of which was already visited) and, on every store —
including diamond convergence and adversarially cyclic parent chains —
never exhausts a fuel bound exceeding the number of store keys not yet
visited, because an identifier already in the visited set is never
re-entered; fuel exhaustion is the marker for unbounded recursion. -/
theorem spec_C6 (store : ObjStore) (fuel : Nat) (sha : List Nat)
    (seen : List (List Nat)) :
    (countUnseen store seen < fuel →
      (log_graphviz store fuel sha seen).1 ≠ some .nonTermination) ∧
    (∃ new, (log_graphviz store fuel sha seen).2.2 = new ++ seen ∧
      new.Nodup ∧ ∀ x ∈ new, x ∉ seen) :=
  ⟨fun h => log_graphviz_no_fuel_err store fuel sha seen h,
   log_graphviz_seen_shape store fuel sha seen⟩

/-- Witness for C6 on a store whose single commit is its own parent (a
cycle): the walk with fuel exceeding the one unvisited key does not
exhaust fuel, and the visited-set growth is duplicate-free. -/
theorem spec_C6_witness :
    countUnseen [([97], ObjVal.commit [(parentKey, KvlmVal.scalar [97])])] [] < 2 ∧
    (log_graphviz [([97], ObjVal.commit [(parentKey, KvlmVal.scalar [97])])] 2 [97] []).1 ≠
      some .nonTermination ∧
    (∃ new, (log_graphviz [([97], ObjVal.commit [(parentKey, KvlmVal.scalar [97])])]
        2 [97] []).2.2 = new ++ [] ∧ new.Nodup ∧ ∀ x ∈ new, x ∉ ([] : List (List Nat))) :=
  ⟨by decide,
   (spec_C6 [([97], ObjVal.commit [(parentKey, KvlmVal.scalar [97])])] 2 [97] []).1 (by decide),
   (spec_C6 [([97], ObjVal.commit [(parentKey, KvlmVal.scalar [97])])] 2 [97] []).2⟩

/-- C7 — store round-trip: an object persisted by write_object is stored
compressed under the sharded path (first two identifier characters as the
directory, the rest as the file name); reading that identifier back
locates the same path, decompresses to an envelope that decodes to the
original type tag and serialized payload, and returns a typed object of
the same type; and read_object on an identifier with no stored file fails
with the not-found error. -/
theorem spec_C7 :
    (∀ (comp decomp hashHex : List Nat → List Nat) (fs : Fs) (v : ObjVal)
        (sha : List Nat) (fs' : Fs),
      (∀ b, decomp (comp b) = b) → objValid v →
      write_object comp hashHex fs v true = .ok (sha, fs') →
      (∃ data, serializeObj v = .ok data ∧ ∃ stored,
        fsLookup fs' (shaPath sha) = some stored ∧
        decodeEnvelope (decomp stored) = .ok (fmtOf v, data)) ∧
      (∃ v', read_object decomp fs' sha = .ok v' ∧ fmtOf v' = fmtOf v)) ∧
    (∀ (decomp : List Nat → List Nat) (fs : Fs) (sha : List Nat),
      fsLookup fs (shaPath sha) = none → read_object decomp fs sha = .error .notFound) :=
  ⟨fun comp decomp hashHex fs v sha fs' hdecomp hval hw =>
    write_read_core comp decomp hashHex fs v sha fs' hdecomp hval hw,
   fun decomp fs sha h => read_object_notFound decomp fs sha h⟩

/-- Witness for C7: a blob with one byte written into an empty store with
the identity compressor and the identity digest, then read back; and a
lookup of an absent identifier failing with the not-found error. -/
theorem spec_C7_witness :
    objValid (ObjVal.blob [7]) ∧
    write_object id (fun x => x) [] (ObjVal.blob [7]) true =
      .ok ([98, 108, 111, 98, 32, 49, 0, 7],
        [(([98, 108], [111, 98, 32, 49, 0, 7]), [98, 108, 111, 98, 32, 49, 0, 7])]) ∧
    ((∃ data, serializeObj (ObjVal.blob [7]) = .ok data ∧ ∃ stored,
        fsLookup [(([98, 108], [111, 98, 32, 49, 0, 7]), [98, 108, 111, 98, 32, 49, 0, 7])]
          (shaPath [98, 108, 111, 98, 32, 49, 0, 7]) = some stored ∧
        decodeEnvelope (id stored) = .ok (fmtOf (ObjVal.blob [7]), data)) ∧
     (∃ v', read_object id
          [(([98, 108], [111, 98, 32, 49, 0, 7]), [98, 108, 111, 98, 32, 49, 0, 7])]
          [98, 108, 111, 98, 32, 49, 0, 7] = .ok v' ∧
        fmtOf v' = fmtOf (ObjVal.blob [7]))) ∧
    (fsLookup ([] : Fs) (shaPath [97, 98]) = none ∧
      read_object id ([] : Fs) [97, 98] = .error .notFound) :=
  ⟨trivial, by decide,
   spec_C7.1 id id (fun x => x) [] (ObjVal.blob [7]) [98, 108, 111, 98, 32, 49, 0, 7]
     [(([98, 108], [111, 98, 32, 49, 0, 7]), [98, 108, 111, 98, 32, 49, 0, 7])]
     (fun b => rfl) trivial (by decide),
   ⟨by decide, spec_C7.2 id [] [97, 98] (by decide)⟩⟩

/-- C8 — identifier determinism: the same type tag and payload always
produce the same envelope bytes and therefore the same hex digest of the
full envelope, and the identifier write_object computes is independent of
the store state, of the compressor, and of whether the object is actually
persisted. -/
theorem spec_C8 (hashHex comp comp' : List Nat → List Nat) (fs fs' : Fs)
    (v : ObjVal) (aw aw' : Bool) (t p t' p' : List Nat)
    (ht : t = t') (hp : p = p') :
    encodeEnvelope t p = encodeEnvelope t' p' ∧
    hashHex (encodeEnvelope t p) = hashHex (encodeEnvelope t' p') ∧
    presMap Prod.fst (write_object comp hashHex fs v aw) =
      presMap Prod.fst (write_object comp' hashHex fs' v aw') := by
  subst ht
  subst hp
  refine ⟨rfl, rfl, ?_⟩
  unfold write_object
  cases serializeObj v with
  | error e => rfl
  | ok data => cases aw <;> cases aw' <;> rfl

/-- Witness for C8: the blob tag and payload compared with themselves,
and two write_object calls differing in store state and persistence flag
returning the same identifier. -/
theorem spec_C8_witness :
    blobTag = blobTag ∧ (([1] : List Nat) = [1]) ∧
    (encodeEnvelope blobTag [1] = encodeEnvelope blobTag [1] ∧
     (fun x => x) (encodeEnvelope blobTag [1]) = (fun x => x) (encodeEnvelope blobTag [1]) ∧
     presMap Prod.fst (write_object id (fun x => x) [] (ObjVal.blob [1]) false) =
       presMap Prod.fst (write_object id (fun x => x) [(([0], [0]), [0])] (ObjVal.blob [1]) true)) :=
  ⟨rfl, rfl, spec_C8 (fun x => x) id id [] [(([0], [0]), [0])] (ObjVal.blob [1])
    false true blobTag [1] blobTag [1] rfl rfl⟩

/-- C9 — mode-width assertion: parse_tree_leaf fails with the assertion
error whenever the distance from the cursor to the first space is not
exactly 5 or 6, and under the validity precondition on every entry the
assertion never fires: serialization succeeds and parse_tree parses the
payload back completely. -/
theorem spec_C9 :
    (∀ (raw : List Nat) (start : Int),
      ¬(pyFind raw 32 start - start = 5 ∨ pyFind raw 32 start - start = 6) →
      parse_tree_leaf raw start = .error .assertionError) ∧
    (∀ E : List TreeLeaf, (∀ e ∈ E, validEntry e) →
      ∃ raw, serialize_tree E = .ok raw ∧ parse_tree raw = .ok E) := by
  constructor
  · intro raw start h
    unfold parse_tree_leaf
    rw [if_neg h]
  · intro E hE
    exact ⟨serEntries E, serialize_tree_ok E hE, tree_roundtrip_core E hE⟩

/-- Witness for C9: the empty payload has no space at all (distance -1),
so the leaf parser asserts; and a concrete valid one-entry list parses
back after serialization. -/
theorem spec_C9_witness :
    (¬(pyFind [] 32 0 - 0 = 5 ∨ pyFind [] 32 0 - 0 = 6) ∧
     parse_tree_leaf [] 0 = .error .assertionError) ∧
    ((∀ e ∈ [TreeLeaf.mk [49, 48, 48, 55, 53, 53] [120] (List.replicate 40 97)], validEntry e) ∧
     ∃ raw, serialize_tree [TreeLeaf.mk [49, 48, 48, 55, 53, 53] [120] (List.replicate 40 97)] =
        .ok raw ∧
      parse_tree raw = .ok [TreeLeaf.mk [49, 48, 48, 55, 53, 53] [120] (List.replicate 40 97)]) :=
  ⟨⟨by decide, spec_C9.1 [] 0 (by decide)⟩,
   ⟨by decide, spec_C9.2 [TreeLeaf.mk [49, 48, 48, 55, 53, 53] [120] (List.replicate 40 97)]
     (by decide)⟩⟩

/-- C10 — dry-run write: write_object with actually_write set to false
(what hash_object requests when no repository is supplied) returns
exactly the identifier a persisting call would return, and leaves the
store state unchanged. -/
theorem spec_C10 (comp hashHex : List Nat → List Nat) (fs : Fs) (v : ObjVal)
    (sha1 sha2 : List Nat) (fs1 fs2 : Fs)
    (h1 : write_object comp hashHex fs v false = .ok (sha1, fs1))
    (h2 : write_object comp hashHex fs v true = .ok (sha2, fs2)) :
    fs1 = fs ∧ sha1 = sha2 := by
  unfold write_object at h1 h2
  cases hser : serializeObj v with
  | error e => rw [hser] at h1; simp at h1
  | ok data =>
    rw [hser] at h1 h2
    simp only [] at h1 h2
    obtain ⟨hs1, hf1⟩ : hashHex (encodeEnvelope (fmtOf v) data) = sha1 ∧ fs = fs1 := by
      simpa using h1
    obtain ⟨hs2, hf2⟩ : hashHex (encodeEnvelope (fmtOf v) data) = sha2 ∧
        fsInsert fs (shaPath (hashHex (encodeEnvelope (fmtOf v) data)))
          (comp (encodeEnvelope (fmtOf v) data)) = fs2 := by
      rw [if_pos trivial] at h2
      simpa using h2
    exact ⟨hf1.symm, hs1 ▸ hs2⟩

/-- Witness for C10: a one-byte blob hashed against the empty store with
and without persistence; the dry run leaves the store empty and both
calls return the same identifier. -/
theorem spec_C10_witness :
    write_object id (fun x => x) [] (ObjVal.blob [7]) false =
      .ok ([98, 108, 111, 98, 32, 49, 0, 7], []) ∧
    write_object id (fun x => x) [] (ObjVal.blob [7]) true =
      .ok ([98, 108, 111, 98, 32, 49, 0, 7],
        [(([98, 108], [111, 98, 32, 49, 0, 7]), [98, 108, 111, 98, 32, 49, 0, 7])]) ∧
    (([] : Fs) = [] ∧ ([98, 108, 111, 98, 32, 49, 0, 7] : List Nat) = [98, 108, 111, 98, 32, 49, 0, 7]) :=
  ⟨by decide, by decide,
   spec_C10 id (fun x => x) [] (ObjVal.blob [7]) [98, 108, 111, 98, 32, 49, 0, 7]
     [98, 108, 111, 98, 32, 49, 0, 7] []
     [(([98, 108], [111, 98, 32, 49, 0, 7]), [98, 108, 111, 98, 32, 49, 0, 7])]
     (by decide) (by decide)⟩

end Ogit
